import Mathlib

/-!
Verification of the counter subsystem, the direct runner and the combiner
library of this data-processing SDK, by a shallow embedding in Lean.

Numeric conventions: Python integers are unbounded, so integer totals are
modelled by the type of integers; the rare float results (counter values and
means) are modelled by exact rationals since the divisions involved are the
only float operations and both sides of every compared expression perform the
identical division.
-/

set_option maxHeartbeats 1000000

namespace Dataflow

/-- Aggregation kinds of utils/counters.py (class constants of Counter). -/
inductive AggregationKind where
  | SUM
  | MAX
  | MIN
  | MEAN
  | AND
  | OR
  deriving DecidableEq

/-- Errors a counter method can raise. -/
inductive CounterError where
  | zeroDivisionError
  | typeError
  deriving DecidableEq

/-- State of a Counter object from utils/counters.py: name, kind, the fast
bounded total (c_total), the unbounded fallback total (py_total), the element
count, and a flag recording whether the object is an AggregatorCounter
(the AggregatorCounter subclass adds no fields of its own). -/
structure Counter where
  name : String
  aggregation_kind : AggregationKind
  c_total : ℤ
  py_total : ℤ
  elements : ℕ
  is_aggregator : Bool
  deriving DecidableEq

/-- Counter.__init__: asserts the kind is SUM or MEAN and zeroes the totals.
The failed assertion is modelled by the none result. -/
def Counter.init (name : String) (kind : AggregationKind) : Option Counter :=
  if kind = .SUM ∨ kind = .MEAN then
    some { name := name, aggregation_kind := kind, c_total := 0, py_total := 0,
           elements := 0, is_aggregator := false }
  else none

/-- AggregatorCounter(name, kind): same constructor, with the subclass flag. -/
def AggregatorCounter.init (name : String) (kind : AggregationKind) : Option Counter :=
  (Counter.init name kind).map (fun c => { c with is_aggregator := true })

/-- Counter.update(count): tries the fast path, which assigns
c_total + count back to c_total unless that addition overflows the bounded
fast representation; on OverflowError the delta goes to py_total instead.
Which sums overflow is compiler dependent, so the overflow condition is a
parameter ovf applied to the attempted new total. The element count is
incremented unconditionally. -/
def Counter.update (ovf : ℤ → Bool) (c : Counter) (count : ℤ) : Counter :=
  if ovf (c.c_total + count) then
    { c with py_total := c.py_total + count, elements := c.elements + 1 }
  else
    { c with c_total := c.c_total + count, elements := c.elements + 1 }

/-- Counter.total property: c_total + py_total. -/
def Counter.total (c : Counter) : ℤ :=
  c.c_total + c.py_total

/-- Counter.value(): the total for SUM; float(total)/elements for MEAN, which
raises ZeroDivisionError when no update ever happened; TypeError otherwise. -/
def Counter.value (c : Counter) : Except CounterError ℚ :=
  match c.aggregation_kind with
  | .SUM => Except.ok (c.total : ℚ)
  | .MEAN =>
      if c.elements = 0 then Except.error CounterError.zeroDivisionError
      else Except.ok ((c.total : ℚ) / (c.elements : ℚ))
  | _ => Except.error CounterError.typeError

/-- The USER_COUNTER_PREFIX constant: names of counters that represent
user aggregators start with this string. -/
def user_counter_ns : String := "user-"

/-- An Aggregator object as seen by the counter subsystem: a name and an
aggregation kind. -/
structure Aggregator where
  name : String
  aggregation_kind : AggregationKind
  deriving DecidableEq

/-- The aggregator_or_name argument of get_aggregator_values: either an
Aggregator object or a plain name string (the basestring case). -/
inductive AggregatorOrName where
  | agg (a : Aggregator)
  | nameStr (s : String)

/-- CounterFactory.get_aggregator_counter: composes the counter name
user-(step)-(aggregator name); if a counter with that name exists it is
asserted to be an AggregatorCounter of the same kind and returned, otherwise
a fresh AggregatorCounter is created and registered. The counters map is an
association list; assertion failures are modelled by none. -/
def CounterFactory.get_aggregator_counter (counters : List (String × Counter))
    (step_name : String) (aggregator : Aggregator) :
    Option (List (String × Counter) × Counter) :=
  let cname := user_counter_ns ++ step_name ++ "-" ++ aggregator.name
  match counters.lookup cname with
  | some counter =>
      if counter.is_aggregator ∧ counter.aggregation_kind = aggregator.aggregation_kind
      then some (counters, counter)
      else none
  | none =>
      match AggregatorCounter.init cname aggregator.aggregation_kind with
      | some counter => some (counters ++ [(cname, counter)], counter)
      | none => none

/-- Model of str.startswith of Python: a character level test, so that
concrete instances evaluate by reduction. -/
def pyStartsWith (s pre : String) : Bool :=
  pre.toList.isPrefixOf s.toList

/-- Model of str.endswith of Python. -/
def pyEndsWith (s sfx : String) : Bool :=
  sfx.toList.reverse.isPrefixOf s.toList.reverse

/-- Module level get_aggregator_values of utils/counters.py. The function
body only returns from inside the branch taken for a non-string argument;
when a name string is passed, control falls off the end of the function and
Python returns None, modelled here by none. In the non-string branch the
comprehension keeps every (full name, extracted value) pair whose name starts
with the user counter namespace and ends with a dash followed by the
aggregator name. -/
def get_aggregator_values {C V : Type} (aggregator_or_name : AggregatorOrName)
    (counter_dict : List (String × C)) (value_extractor : C → V) :
    Option (List (String × V)) :=
  match aggregator_or_name with
  | .nameStr _ => none
  | .agg a =>
      some ((counter_dict.filter (fun p =>
          pyStartsWith p.1 user_counter_ns && pyEndsWith p.1 ("-" ++ a.name))).map
          (fun p => (p.1, value_extractor p.2)))

/-- CounterFactory.get_aggregator_values: delegates to the module level
function, extracting each value with counter.value(). -/
def CounterFactory.get_aggregator_values (aggregator_or_name : AggregatorOrName)
    (counters : List (String × Counter)) :
    Option (List (String × Except CounterError ℚ)) :=
  Dataflow.get_aggregator_values aggregator_or_name counters (fun counter => counter.value)

/-- An overflow condition under which the fast path never overflows. -/
def ovfNever : ℤ → Bool := fun _ => false

/-- The aggregator used in the concrete counter scenarios. -/
def aggExample : Aggregator := { name := "agg", aggregation_kind := .SUM }

/-- Factory state after registering the counter for step s1 and aggregator
agg through get_aggregator_counter and updating that counter with 7. -/
def c1state : List (String × Counter) :=
  match CounterFactory.get_aggregator_counter [] "s1" aggExample with
  | some (cs, c) =>
      cs.map (fun p => if p.1 = c.name then (p.1, Counter.update ovfNever p.2 7) else p)
  | none => []

/-- A windowed value: in this executor every value is wrapped by
GlobalWindows.WindowedValue, so only the payload is observable. -/
structure WindowedValue (α : Type) where
  value : α
  deriving DecidableEq

/-- Kind of PCollection view reaching run_CreatePCollectionView, as decided by
the isinstance chain: a singleton view (whose _view_options carry the declared
default, modelled from the spec), an iterable view, a list view, or any other
view class, which falls into the final else branch. -/
inductive ViewKind (α : Type) where
  | singleton (has_default : Bool) (default_value : α)
  | iterable
  | listV
  | other

/-- A materialized side input: the EmptySideInput marker object, a plain
unwrapped value (a declared default or the payload of a lone element), or the
sequence produced for iterable and list views. -/
inductive SideInputVal (α : Type) where
  | emptySideInput
  | plain (a : α)
  | seq (l : List α)
  deriving DecidableEq

/-- Errors raised by the evaluation rules of the direct runner. -/
inductive RunnerError where
  | valueError (msg : String)
  | typeCheckError (msg : String)
  | notImplementedError
  deriving DecidableEq

/-- DirectPipelineRunner.run_CreatePCollectionView, given the cached input
collection: a singleton view of no elements yields the declared default or the
EmptySideInput marker, of one element its unwrapped payload, and of two or
more raises ValueError; iterable and list views project every payload, in
order; any other view raises NotImplementedError. -/
def run_CreatePCollectionView {α : Type} (view : ViewKind α)
    (values : List (WindowedValue α)) : Except RunnerError (SideInputVal α) :=
  match view with
  | .singleton has_default default_value =>
      match values with
      | [] =>
          if has_default then Except.ok (SideInputVal.plain default_value)
          else Except.ok SideInputVal.emptySideInput
      | [v] => Except.ok (SideInputVal.plain v.value)
      | _ :: _ :: _ =>
          Except.error (RunnerError.valueError
            ("PCollection with more than one element accessed as a singleton view"))
  | .iterable => Except.ok (SideInputVal.seq (values.map (fun v => v.value)))
  | .listV => Except.ok (SideInputVal.seq (values.map (fun v => v.value)))
  | .other => Except.error RunnerError.notImplementedError

/-- Spec side definition of view materialization, written from the words of
the specification: iterable and list views project every windowed value
payload into an ordered sequence. Compared against both code branches. -/
def viewMaterializationSpec {α : Type} (values : List (WindowedValue α)) :
    SideInputVal α :=
  SideInputVal.seq (values.map (fun v => v.value))

/-- Runner state visible to the cache check decorator. Modelled from the spec:
the PValue cache (runners/runner.py is outside the sources) is a mapping from
pvalue identity to materialized output; the state also carries the debug
element counts and, in rest, every other piece of runner state. -/
structure RunnerState (V ρ : Type) where
  cache : List (ℕ × V)
  element_counts : List (String × ℕ)
  rest : ρ

/-- PValueCache.is_cached, modelled from the spec as membership of the pvalue
in the cache mapping. -/
def is_cached {V ρ : Type} (s : RunnerState V ρ) (pvalue : ℕ) : Bool :=
  (s.cache.lookup pvalue).isSome

/-- DirectPipelineRunner.skip_if_cached: the decorator wrapping every
evaluation rule; when the pvalue is already cached the wrapped function
returns without invoking the rule, leaving the state as it was, otherwise the
rule runs. -/
def skip_if_cached {V ρ : Type} (func : RunnerState V ρ → ℕ → RunnerState V ρ)
    (s : RunnerState V ρ) (pvalue : ℕ) : RunnerState V ρ :=
  if is_cached s pvalue then s else func s pvalue

/-- One element of the input to run_GroupByKeyOnly. The loop accepts exactly
the elements that are WindowedValue instances whose payload is an iterable of
length two, destructured as a key and a value; every other element is
malformed and hits the raise branch. -/
inductive GBKElem (κ ν : Type) where
  | good (wv : WindowedValue (κ × ν))
  | bad
  deriving DecidableEq

/-- Append of one value to the per-encoded-key list, as performed by
result_dict[key_coder.encode(k)].append(v) on the defaultdict(list); the dict
is modelled as an association list in insertion order (the claims proved
below do not depend on the iteration order of the dict). -/
def dictAppend {σ ν : Type} [DecidableEq σ] (m : List (σ × List ν)) (key : σ)
    (v : ν) : List (σ × List ν) :=
  match m with
  | [] => [(key, [v])]
  | (k, vs) :: rest =>
      if k = key then (k, vs ++ [v]) :: rest else (k, vs) :: dictAppend rest key v

/-- The loop of run_GroupByKeyOnly: walks the cached input in order, raising
TypeCheckError at the first malformed element and otherwise accumulating each
value under its encoded key. -/
def gbkLoop {κ ν σ : Type} [DecidableEq σ] (encode : κ → σ) :
    List (GBKElem κ ν) → List (σ × List ν) →
    Except RunnerError (List (σ × List ν))
  | [], acc => Except.ok acc
  | .good wv :: rest, acc =>
      gbkLoop encode rest (dictAppend acc (encode wv.value.1) wv.value.2)
  | .bad :: _, _ =>
      Except.error (RunnerError.typeCheckError
        ("Input to GroupByKeyOnly must be a PCollection of windowed key-value pairs"))

/-- DirectPipelineRunner.run_GroupByKeyOnly, given the cached input and the
key coder: groups the values by encoded key, then decodes every key and wraps
each (key, values) pair as a windowed value in the global window. -/
def run_GroupByKeyOnly {κ ν σ : Type} [DecidableEq σ] (encode : κ → σ)
    (decode : σ → κ) (input : List (GBKElem κ ν)) :
    Except RunnerError (List (WindowedValue (κ × List ν))) :=
  (gbkLoop encode input []).map
    (fun d => d.map (fun p => WindowedValue.mk (decode p.1, p.2)))

/-- The key-value pairs carried by the well-formed elements of a
GroupByKeyOnly input. -/
def goodPairs {κ ν : Type} (input : List (GBKElem κ ν)) : List (κ × ν) :=
  input.filterMap (fun e =>
    match e with
    | .good wv => some wv.value
    | .bad => none)

/-- First-match lookup in the association list modelling the grouping dict. -/
def dictGet {σ ν : Type} [DecidableEq σ] (m : List (σ × List ν)) (key : σ) :
    Option (List ν) :=
  match m with
  | [] => none
  | (k, vs) :: rest => if k = key then some vs else dictGet rest key

/-- The values carried by the pairs of a stream whose key encodes to s, in
arrival order. -/
def valuesEnc {κ ν σ : Type} [DecidableEq σ] (encode : κ → σ)
    (ps : List (κ × ν)) (s : σ) : List ν :=
  ps.filterMap (fun p => if encode p.1 = s then some p.2 else none)

/-- The grouping dict built by the loop of run_GroupByKeyOnly from a stream
of well-formed pairs. -/
def grp {κ ν σ : Type} [DecidableEq σ] (encode : κ → σ) (ps : List (κ × ν)) :
    List (σ × List ν) :=
  ps.foldl (fun m p => dictAppend m (encode p.1) p.2) []

/-- Output of the Mean combiner extract phase: float(NaN) or an exact value. -/
inductive MeanOutput where
  | nan
  | val (q : ℚ)
  deriving DecidableEq

/-- MeanCombineFn.create_accumulator: (0, 0). -/
def MeanCombineFn.create_accumulator : ℚ × ℕ := (0, 0)

/-- MeanCombineFn.add_input: adds the element to the running sum and bumps
the running count. -/
def MeanCombineFn.add_input (acc : ℚ × ℕ) (element : ℚ) : ℚ × ℕ :=
  (acc.1 + element, acc.2 + 1)

/-- MeanCombineFn.merge_accumulators: unzips and sums componentwise; on an
empty accumulator list the unpacking of zip(*accumulators) raises, modelled
by none. -/
def MeanCombineFn.merge_accumulators (accumulators : List (ℚ × ℕ)) :
    Option (ℚ × ℕ) :=
  match accumulators with
  | [] => none
  | _ :: _ =>
      some (accumulators.foldl (fun s a => (s.1 + a.1, s.2 + a.2)) (0, 0))

/-- MeanCombineFn.extract_output: NaN on a zero count, otherwise the sum
divided by the count. -/
def MeanCombineFn.extract_output (acc : ℚ × ℕ) : MeanOutput :=
  if acc.2 = 0 then MeanOutput.nan else MeanOutput.val (acc.1 / (acc.2 : ℚ))

/-- The accumulator the Mean combiner builds from a stream by repeated
add_input from a fresh accumulator. -/
def meanAcc (xs : List ℚ) : ℚ × ℕ :=
  xs.foldl MeanCombineFn.add_input MeanCombineFn.create_accumulator

/-- Comparison relation of heap order: a may sit below b in the min heap when
b is not less than a under the caller supplied comparator. -/
def heapLe {α : Type} (lt : α → α → Bool) (a b : α) : Prop :=
  lt b a = false

instance {α : Type} (lt : α → α → Bool) : DecidableRel (heapLe lt) :=
  fun a b => instDecidableEqBool (lt b a) false

/-- Descending order relation used when extracting: a may precede b when a is
not less than b under the comparator. -/
def descLe {α : Type} (lt : α → α → Bool) (a b : α) : Prop :=
  lt a b = false

instance {α : Type} (lt : α → α → Bool) : DecidableRel (descLe lt) :=
  fun a b => instDecidableEqBool (lt a b) false

/-- Model of heapq.heappush of the Python standard library (an external
collaborator of combiners.py): the heap is represented abstractly as a list
kept ascending under the comparator, so that, as heapq guarantees, index 0
is the root and a minimum; pushing inserts the item at an order preserving
position. The _HeapItem wrapper of TopCombineFn only routes the comparator
into the comparison, so items are modelled by the wrapped values with the
comparator passed explicitly. -/
def heappush {α : Type} (lt : α → α → Bool) (heap : List α) (item : α) :
    List α :=
  List.orderedInsert (heapLe lt) item heap

/-- Model of heapq.heappushpop: on an empty heap the item bounces back and
the heap is unchanged; otherwise, when the root compares less than the item,
the root is popped and the item inserted, and when it does not, the heap is
unchanged. -/
def heappushpop {α : Type} (lt : α → α → Bool) (heap : List α) (item : α) :
    List α :=
  match heap with
  | [] => []
  | h :: t => if lt h item then List.orderedInsert (heapLe lt) item t else h :: t

/-- TopCombineFn.create_accumulator: the empty heap. -/
def TopCombineFn.create_accumulator (α : Type) : List α := []

/-- TopCombineFn.add_input: push while the heap holds fewer than n items,
otherwise push then pop the minimum. -/
def TopCombineFn.add_input {α : Type} (lt : α → α → Bool) (n : ℕ)
    (heap : List α) (element : α) : List α :=
  if heap.length < n then heappush lt heap element
  else heappushpop lt heap element

/-- TopCombineFn.merge_accumulators: chain the items of all source heaps and
replay the push or push-pop-minimum discipline into a fresh heap. -/
def TopCombineFn.merge_accumulators {α : Type} (lt : α → α → Bool) (n : ℕ)
    (heaps : List (List α)) : List α :=
  heaps.flatten.foldl
    (fun heap e =>
      if heap.length < n then heappush lt heap e else heappushpop lt heap e)
    []

/-- TopCombineFn.extract_output: the heap items in sorted order, greatest
first under the comparator; sorted(heap, reverse=True) of Python is modelled
by an insertion sort under the descending relation, which agrees with any
sort whenever the comparator is a strict total order (the only case the
claims compare outputs in). -/
def TopCombineFn.extract_output {α : Type} (lt : α → α → Bool)
    (heap : List α) : List α :=
  List.insertionSort (descLe lt) heap

/-- The accumulator TopCombineFn builds from a stream by repeated add_input
starting from create_accumulator. -/
def topAddFold {α : Type} (lt : α → α → Bool) (n : ℕ) (xs : List α) : List α :=
  xs.foldl (TopCombineFn.add_input lt n) (TopCombineFn.create_accumulator α)

/-- The comparator is transitive. -/
def LtTrans {α : Type} (lt : α → α → Bool) : Prop :=
  ∀ a b c, lt a b = true → lt b c = true → lt a c = true

/-- The comparator is asymmetric. -/
def LtAsymm {α : Type} (lt : α → α → Bool) : Prop :=
  ∀ a b, lt a b = true → lt b a = false

/-- The comparator is total: incomparable elements are equal. Together with
transitivity and asymmetry this makes the comparator a strict total order. -/
def LtTrich {α : Type} (lt : α → α → Bool) : Prop :=
  ∀ a b, lt a b = false → lt b a = false → a = b

/-- The multiset M consists of the n greatest elements of the multiset S
under the comparator: it is contained in S, it is as large as S allows up to
n, and no element left out of it is greater than any element kept. -/
def IsTopK {α : Type} [DecidableEq α] (lt : α → α → Bool) (n : ℕ)
    (S M : Multiset α) : Prop :=
  M ≤ S ∧ Multiset.card M = min n (Multiset.card S) ∧
    ∀ x ∈ S - M, ∀ y ∈ M, lt y x = false

/-- Invariant tying a heap to the multiset of elements it was fed: the list
is ascending under the comparator and its contents are the n greatest. -/
def HeapInv {α : Type} [DecidableEq α] (lt : α → α → Bool) (n : ℕ)
    (S : Multiset α) (heap : List α) : Prop :=
  List.Sorted (heapLe lt) heap ∧ IsTopK lt n S (↑heap)

/-- Claim C4: for every transform node whose output is already present in the
cache, invoking any evaluation rule on that node again is a no-op: the cache
entry, the debug element counts, and every other piece of runner state are
unchanged. -/
theorem c4_skip_if_cached_noop {V ρ : Type}
    (func : RunnerState V ρ → ℕ → RunnerState V ρ) (s : RunnerState V ρ)
    (pvalue : ℕ) (h : is_cached s pvalue = true) :
    skip_if_cached func s pvalue = s ∧
    (skip_if_cached func s pvalue).cache = s.cache ∧
    (skip_if_cached func s pvalue).element_counts = s.element_counts ∧
    (skip_if_cached func s pvalue).rest = s.rest := by
  have heq : skip_if_cached func s pvalue = s := by
    unfold skip_if_cached
    simp [h]
  exact ⟨heq, by rw [heq], by rw [heq], by rw [heq]⟩

/-- Witness for C4: a state caching pvalue 0 is untouched by a second run of
an evaluation rule that would otherwise wipe the debug counts. -/
theorem c4_witness :
    skip_if_cached (fun s _ => { s with element_counts := [] })
        (RunnerState.mk [(0, 42)] [("step", 1)] (0 : ℕ)) 0
      = RunnerState.mk [(0, 42)] [("step", 1)] (0 : ℕ) :=
  (c4_skip_if_cached_noop (fun s _ => { s with element_counts := [] })
    (RunnerState.mk [(0, 42)] [("step", 1)] (0 : ℕ)) 0 (by decide)).1

/-- Claim C5: run_CreatePCollectionView on a singleton view returns the
declared default when the cached collection is empty and a default is
declared, the EmptySideInput marker when it is empty with no default, the
single element payload when it has exactly one element, and raises ValueError
when it has two or more elements. -/
theorem c5_singleton_view {α : Type} (has_default : Bool) (default_value : α)
    (values : List (WindowedValue α)) :
    (values = [] → has_default = true →
      run_CreatePCollectionView (.singleton has_default default_value) values
        = Except.ok (SideInputVal.plain default_value)) ∧
    (values = [] → has_default = false →
      run_CreatePCollectionView (.singleton has_default default_value) values
        = Except.ok SideInputVal.emptySideInput) ∧
    (∀ v, values = [v] →
      run_CreatePCollectionView (.singleton has_default default_value) values
        = Except.ok (SideInputVal.plain v.value)) ∧
    (2 ≤ values.length →
      ∃ msg,
        run_CreatePCollectionView (.singleton has_default default_value) values
          = Except.error (RunnerError.valueError msg)) := by
  refine ⟨?_, ?_, ?_, ?_⟩
  · rintro rfl rfl; rfl
  · rintro rfl rfl; rfl
  · rintro v rfl; rfl
  · intro h
    rcases values with _ | ⟨a, _ | ⟨b, rest⟩⟩
    · simp at h
    · simp at h
    · exact ⟨_, rfl⟩

/-- Witness for C5: the four singleton cases at concrete inputs. -/
theorem c5_witness :
    run_CreatePCollectionView (.singleton true 9) ([] : List (WindowedValue ℕ))
      = Except.ok (SideInputVal.plain 9) ∧
    run_CreatePCollectionView (ViewKind.singleton false 9)
        ([] : List (WindowedValue ℕ))
      = Except.ok SideInputVal.emptySideInput ∧
    run_CreatePCollectionView (ViewKind.singleton false 9) [WindowedValue.mk 5]
      = Except.ok (SideInputVal.plain 5) ∧
    (∃ msg,
      run_CreatePCollectionView (ViewKind.singleton false 9)
          [WindowedValue.mk 5, WindowedValue.mk 6]
        = Except.error (RunnerError.valueError msg)) := by
  refine ⟨?_, ?_, ?_, ?_⟩
  · exact (c5_singleton_view true 9 []).1 rfl rfl
  · exact (c5_singleton_view false 9 []).2.1 rfl rfl
  · exact (c5_singleton_view false 9 [WindowedValue.mk 5]).2.2.1
      (WindowedValue.mk 5) rfl
  · exact (c5_singleton_view false 9
      [WindowedValue.mk 5, WindowedValue.mk 6]).2.2.2 (by decide)

/-- Claim C10: run_CreatePCollectionView materializes an iterable view and a
list view to the identical value, in both cases the ordered list of the
windowed value payloads, matching the spec side definition of view
materialization. -/
theorem c10_view_equiv {α : Type} (values : List (WindowedValue α)) :
    run_CreatePCollectionView ViewKind.iterable values
      = run_CreatePCollectionView ViewKind.listV values ∧
    run_CreatePCollectionView ViewKind.iterable values
      = Except.ok (viewMaterializationSpec values) ∧
    viewMaterializationSpec values
      = SideInputVal.seq (values.map (fun v => v.value)) :=
  ⟨rfl, rfl, rfl⟩

/-- A Mean accumulator built from a stream is the pair of the stream sum and
the stream length. -/
theorem meanAcc_eq (xs : List ℚ) : meanAcc xs = (xs.sum, xs.length) := by
  have h : ∀ (l : List ℚ) (a : ℚ × ℕ),
      l.foldl MeanCombineFn.add_input a = (a.1 + l.sum, a.2 + l.length) := by
    intro l
    induction l with
    | nil => intro a; simp
    | cons x t ih =>
        intro a
        simp only [List.foldl_cons, ih, MeanCombineFn.add_input, List.sum_cons,
          List.length_cons]
        refine Prod.ext ?_ ?_
        · ring
        · simp; omega
  simpa [meanAcc, MeanCombineFn.create_accumulator] using h xs (0, 0)

/-- Claim C6: the Mean combiner extracts NaN from the accumulator of the
empty input and never errors there, extracts the arithmetic mean from the
accumulator of a non-empty input (4.0 on the stream 2, 4, 6), and merging the
partial accumulators of any two sub-streams then extracting equals extracting
from the accumulator of the concatenated stream. -/
theorem c6_mean_combine (xs ys : List ℚ) :
    MeanCombineFn.extract_output (meanAcc []) = MeanOutput.nan ∧
    MeanCombineFn.extract_output (meanAcc [2, 4, 6]) = MeanOutput.val 4 ∧
    (xs ≠ [] →
      MeanCombineFn.extract_output (meanAcc xs)
        = MeanOutput.val (xs.sum / (xs.length : ℚ))) ∧
    MeanCombineFn.merge_accumulators [meanAcc xs, meanAcc ys]
      = some (meanAcc (xs ++ ys)) ∧
    (MeanCombineFn.merge_accumulators [meanAcc xs, meanAcc ys]).map
        MeanCombineFn.extract_output
      = some (MeanCombineFn.extract_output (meanAcc (xs ++ ys))) := by
  have hmerge :
      MeanCombineFn.merge_accumulators [meanAcc xs, meanAcc ys]
        = some (meanAcc (xs ++ ys)) := by
    simp only [MeanCombineFn.merge_accumulators, List.foldl_cons, List.foldl_nil,
      meanAcc_eq, List.sum_append, List.length_append]
    norm_num
  refine ⟨rfl, ?_, ?_, hmerge, ?_⟩
  · simp only [meanAcc_eq, MeanCombineFn.extract_output]
    norm_num
  · intro hne
    simp only [meanAcc_eq, MeanCombineFn.extract_output]
    rw [if_neg]
    simpa using hne
  · rw [hmerge]; rfl

/-- Witness for C6: the non-empty extraction and the merge law at the split
of the stream 2, 4, 6 into 2, 4 and 6. -/
theorem c6_witness :
    MeanCombineFn.extract_output (meanAcc [2, 4]) = MeanOutput.val 3 ∧
    (MeanCombineFn.merge_accumulators [meanAcc [2, 4], meanAcc [6]]).map
        MeanCombineFn.extract_output
      = some (MeanCombineFn.extract_output (meanAcc ([2, 4] ++ [6]))) := by
  have h := c6_mean_combine [2, 4] [6]
  refine ⟨?_, h.2.2.2.2⟩
  have h3 := h.2.2.1 (by simp)
  rw [h3]
  norm_num

/-- Folding any sequence of updates over a counter adds the deltas to the
combined total, counts one element per call, and touches neither the kind nor
the name. -/
theorem counter_fold_spec :
    ∀ (deltas : List ℤ) (ovf : ℤ → Bool) (c : Counter),
      (deltas.foldl (Counter.update ovf) c).total = c.total + deltas.sum ∧
      (deltas.foldl (Counter.update ovf) c).elements
        = c.elements + deltas.length ∧
      (deltas.foldl (Counter.update ovf) c).aggregation_kind
        = c.aggregation_kind
  | [], ovf, c => by simp
  | d :: rest, ovf, c => by
      obtain ⟨h1, h2, h3⟩ := counter_fold_spec rest ovf (Counter.update ovf c d)
      have hstep : (Counter.update ovf c d).total = c.total + d ∧
          (Counter.update ovf c d).elements = c.elements + 1 ∧
          (Counter.update ovf c d).aggregation_kind = c.aggregation_kind := by
        unfold Counter.update
        split <;> simp [Counter.total] <;> ring
      refine ⟨?_, ?_, ?_⟩
      · rw [List.foldl_cons, h1, hstep.1, List.sum_cons]; ring
      · rw [List.foldl_cons, h2, hstep.2.1, List.length_cons]; omega
      · rw [List.foldl_cons, h3, hstep.2.2]

/-- A counter whose kind is SUM reports its combined total as its value. -/
theorem counter_value_sum (c : Counter) (h : c.aggregation_kind = .SUM) :
    c.value = Except.ok ((c.total : ℚ)) := by
  unfold Counter.value
  rw [h]

/-- Claim C7: for every SUM counter and every sequence of update calls,
whatever deltas overflow the fast bounded total, the final value equals the
exact mathematical sum of all deltas and the element count equals the number
of update calls. -/
theorem c7_sum_counter_overflow (ovf : ℤ → Bool) (name : String)
    (deltas : List ℤ) (c0 : Counter)
    (h : Counter.init name .SUM = some c0) :
    (deltas.foldl (Counter.update ovf) c0).total = deltas.sum ∧
    (deltas.foldl (Counter.update ovf) c0).elements = deltas.length ∧
    (deltas.foldl (Counter.update ovf) c0).value
      = Except.ok ((deltas.sum : ℚ)) := by
  have hc0 : c0 = Counter.mk name .SUM 0 0 0 false := by
    simp [Counter.init] at h
    exact h.symm
  subst hc0
  obtain ⟨h1, h2, h3⟩ :=
    counter_fold_spec deltas ovf (Counter.mk name .SUM 0 0 0 false)
  have htot :
      (deltas.foldl (Counter.update ovf)
        (Counter.mk name .SUM 0 0 0 false)).total = deltas.sum := by
    rw [h1]; simp [Counter.total]
  refine ⟨htot, ?_, ?_⟩
  · rw [h2]; simp
  · rw [counter_value_sum _ (by rw [h3]), htot]

/-- Witness for C7: a SUM counter fed 5 then 7 under an overflow condition
that triggers on any total past 10, so the second update takes the fallback
path; the value is still the exact sum 12 and two elements are counted. -/
theorem c7_witness :
    (([5, 7] : List ℤ).foldl (Counter.update (fun t => decide (10 < t)))
        (Counter.mk "c" .SUM 0 0 0 false)).total = ([5, 7] : List ℤ).sum ∧
    (([5, 7] : List ℤ).foldl (Counter.update (fun t => decide (10 < t)))
        (Counter.mk "c" .SUM 0 0 0 false)).elements
      = ([5, 7] : List ℤ).length ∧
    (([5, 7] : List ℤ).foldl (Counter.update (fun t => decide (10 < t)))
        (Counter.mk "c" .SUM 0 0 0 false)).value
      = Except.ok ((([5, 7] : List ℤ).sum : ℚ)) :=
  c7_sum_counter_overflow (fun t => decide (10 < t)) "c" [5, 7]
    (Counter.mk "c" .SUM 0 0 0 false) (by decide)

/-- Claim C8: value() on a MEAN counter returns the running total divided by
the element count once at least one update happened and raises when none ever
did; value() on a SUM counter returns the running total and never fails. -/
theorem c8_counter_value (ovf : ℤ → Bool) (name : String) (deltas : List ℤ) :
    (∀ c0, Counter.init name .MEAN = some c0 →
      (deltas ≠ [] →
        (deltas.foldl (Counter.update ovf) c0).value
          = Except.ok (((deltas.foldl (Counter.update ovf) c0).total : ℚ)
              / (((deltas.foldl (Counter.update ovf) c0).elements : ℕ) : ℚ))) ∧
      (deltas = [] →
        (deltas.foldl (Counter.update ovf) c0).value
          = Except.error CounterError.zeroDivisionError)) ∧
    (∀ c0, Counter.init name .SUM = some c0 →
      (deltas.foldl (Counter.update ovf) c0).value
        = Except.ok (((deltas.foldl (Counter.update ovf) c0).total : ℚ))) := by
  constructor
  · intro c0 h
    have hc0 : c0 = Counter.mk name .MEAN 0 0 0 false := by
      simp [Counter.init] at h
      exact h.symm
    subst hc0
    obtain ⟨h1, h2, h3⟩ :=
      counter_fold_spec deltas ovf (Counter.mk name .MEAN 0 0 0 false)
    constructor
    · intro hne
      have hel : (deltas.foldl (Counter.update ovf)
          (Counter.mk name .MEAN 0 0 0 false)).elements ≠ 0 := by
        rw [h2]
        simp only [ne_eq]
        intro hlen
        exact hne (List.eq_nil_of_length_eq_zero (by omega))
      unfold Counter.value
      rw [h3]
      simp only [if_neg hel]
    · intro hnil
      subst hnil
      unfold Counter.value
      rw [h3]
      simp [h2]
  · intro c0 h
    have hc0 : c0 = Counter.mk name .SUM 0 0 0 false := by
      simp [Counter.init] at h
      exact h.symm
    subst hc0
    obtain ⟨h1, h2, h3⟩ :=
      counter_fold_spec deltas ovf (Counter.mk name .SUM 0 0 0 false)
    exact counter_value_sum _ (by rw [h3])

/-- Witness for C8: a MEAN counter over 2 then 4 values to 3; a fresh MEAN
counter raises ZeroDivisionError; a fresh SUM counter values to 0. -/
theorem c8_witness :
    (([2, 4] : List ℤ).foldl (Counter.update ovfNever)
        (Counter.mk "m" .MEAN 0 0 0 false)).value = Except.ok 3 ∧
    (([] : List ℤ).foldl (Counter.update ovfNever)
        (Counter.mk "m" .MEAN 0 0 0 false)).value
      = Except.error CounterError.zeroDivisionError ∧
    (([] : List ℤ).foldl (Counter.update ovfNever)
        (Counter.mk "s" .SUM 0 0 0 false)).value = Except.ok 0 := by
  have hm := (c8_counter_value ovfNever "m" [2, 4]).1
    (Counter.mk "m" .MEAN 0 0 0 false) (by decide)
  have hm0 := (c8_counter_value ovfNever "m" []).1
    (Counter.mk "m" .MEAN 0 0 0 false) (by decide)
  have hs := (c8_counter_value ovfNever "s" []).2
    (Counter.mk "s" .SUM 0 0 0 false) (by decide)
  refine ⟨?_, hm0.2 rfl, ?_⟩
  · rw [hm.1 (by decide)]
    norm_num [Counter.update, Counter.total, ovfNever]
  · rw [hs]
    norm_num [Counter.total]

/-- Claim C1 is refuted by the code: registering the aggregator counter for
step s1 and aggregator agg and updating it with 7, get_aggregator_values
returns None when the aggregator is passed by its name string (the function
only returns from the non-string branch), and when passed the aggregator
object it keys the mapping by the full counter name user-s1-agg, not by the
step name s1. -/
theorem c1_get_aggregator_values_bug :
    CounterFactory.get_aggregator_values (.nameStr "agg") c1state = none ∧
    CounterFactory.get_aggregator_values (.agg aggExample) c1state
      = some [("user-s1-agg", Except.ok 7)] ∧
    ("user-s1-agg" : String) ≠ "s1" := by
  refine ⟨rfl, ?_, by decide⟩
  rfl

/-- A key is absent from the grouping dict exactly when dictGet misses. -/
theorem dictGet_eq_none {σ ν : Type} [DecidableEq σ] :
    ∀ (m : List (σ × List ν)) (key : σ),
      dictGet m key = none ↔ key ∉ m.map Prod.fst
  | [], key => by simp [dictGet]
  | (k, vs) :: rest, key => by
      by_cases h : k = key
      · subst h; simp [dictGet]
      · simp [dictGet, h, dictGet_eq_none rest key, Ne.symm h]

/-- Appending a value under a key extends exactly that key's list. -/
theorem dictAppend_get_eq {σ ν : Type} [DecidableEq σ] :
    ∀ (m : List (σ × List ν)) (key : σ) (v : ν),
      dictGet (dictAppend m key v) key
        = some ((dictGet m key).getD [] ++ [v])
  | [], key, v => by simp [dictAppend, dictGet]
  | (k, vs) :: rest, key, v => by
      by_cases h : k = key
      · subst h; simp [dictAppend, dictGet]
      · simp [dictAppend, dictGet, h, dictAppend_get_eq rest key v]

/-- Appending a value under a key leaves every other key's list alone. -/
theorem dictAppend_get_ne {σ ν : Type} [DecidableEq σ] :
    ∀ (m : List (σ × List ν)) (key key' : σ) (v : ν), key' ≠ key →
      dictGet (dictAppend m key v) key' = dictGet m key'
  | [], key, key', v, h => by
      simp [dictAppend, dictGet, Ne.symm h]
  | (k, vs) :: rest, key, key', v, h => by
      by_cases hk : k = key
      · subst hk
        simp [dictAppend, dictGet, Ne.symm h]
      · by_cases hk' : k = key'
        · subst hk'; simp [dictAppend, dictGet, hk]
        · simp [dictAppend, dictGet, hk, hk', dictAppend_get_ne rest key key' v h]

/-- Appending under a fresh key adds it at the end of the key sequence;
appending under a present key keeps the key sequence. -/
theorem dictAppend_keys {σ ν : Type} [DecidableEq σ] :
    ∀ (m : List (σ × List ν)) (key : σ) (v : ν),
      (dictAppend m key v).map Prod.fst
        = if key ∈ m.map Prod.fst then m.map Prod.fst
          else m.map Prod.fst ++ [key]
  | [], key, v => by simp [dictAppend]
  | (k, vs) :: rest, key, v => by
      by_cases h : k = key
      · subst h; simp [dictAppend]
      · simp only [dictAppend, if_neg h, List.map_cons, List.mem_cons]
        rw [dictAppend_keys rest key v]
        by_cases hmem : key ∈ rest.map Prod.fst
        · simp [hmem, Ne.symm h]
        · simp [hmem, Ne.symm h]

/-- Appending preserves distinctness of the keys. -/
theorem dictAppend_nodup {σ ν : Type} [DecidableEq σ]
    (m : List (σ × List ν)) (key : σ) (v : ν)
    (h : (m.map Prod.fst).Nodup) :
    ((dictAppend m key v).map Prod.fst).Nodup := by
  rw [dictAppend_keys]
  by_cases hmem : key ∈ m.map Prod.fst
  · simpa [hmem] using h
  · simp only [if_neg hmem]
    rw [List.nodup_append]
    refine ⟨h, List.nodup_singleton key, ?_⟩
    simpa using hmem

/-- On a dict with distinct keys, membership of an entry is dictGet. -/
theorem dictGet_mem {σ ν : Type} [DecidableEq σ] :
    ∀ (m : List (σ × List ν)), (m.map Prod.fst).Nodup →
      ∀ (k : σ) (vs : List ν), ((k, vs) ∈ m ↔ dictGet m k = some vs)
  | [], _, k, vs => by simp [dictGet]
  | (k0, vs0) :: rest, h, k, vs => by
      have h' : k0 ∉ rest.map Prod.fst ∧ (rest.map Prod.fst).Nodup := by
        simpa using h
      by_cases hek : k0 = k
      · subst hek
        have hget : dictGet ((k0, vs0) :: rest) k0 = some vs0 := by
          simp [dictGet]
        rw [hget]
        simp only [List.mem_cons, Option.some_inj]
        constructor
        · rintro (heq | hm)
          · injection heq with h1 h2
            exact h2.symm
          · exact absurd (List.mem_map_of_mem Prod.fst hm) h'.1
        · rintro rfl
          exact Or.inl rfl
      · have hget : dictGet ((k0, vs0) :: rest) k = dictGet rest k := by
          simp [dictGet, hek]
        rw [hget, ← dictGet_mem rest h'.2 k vs]
        simp only [List.mem_cons]
        constructor
        · rintro (heq | hm)
          · injection heq with h1 h2
            exact absurd h1.symm hek
          · exact hm
        · exact Or.inr

/-- Looking up the dict built by folding a stream of pairs over an arbitrary
starting dict: keys receiving no value keep their binding, keys receiving
values get them appended. -/
theorem grp_get_aux {κ ν σ : Type} [DecidableEq σ] (encode : κ → σ) :
    ∀ (ps : List (κ × ν)) (acc : List (σ × List ν)) (s : σ),
      (valuesEnc encode ps s = [] →
        dictGet (ps.foldl (fun m p => dictAppend m (encode p.1) p.2) acc) s
          = dictGet acc s) ∧
      (valuesEnc encode ps s ≠ [] →
        dictGet (ps.foldl (fun m p => dictAppend m (encode p.1) p.2) acc) s
          = some ((dictGet acc s).getD [] ++ valuesEnc encode ps s))
  | [], acc, s => by simp [valuesEnc]
  | p :: ps, acc, s => by
      obtain ⟨ih1, ih2⟩ :=
        grp_get_aux encode ps (dictAppend acc (encode p.1) p.2) s
      rw [List.foldl_cons]
      by_cases hs : encode p.1 = s
      · subst hs
        have hcons : valuesEnc encode (p :: ps) (encode p.1)
            = p.2 :: valuesEnc encode ps (encode p.1) := by
          simp [valuesEnc]
        constructor
        · intro hnil
          rw [hcons] at hnil
          exact absurd hnil (by simp)
        · intro _
          rw [hcons]
          by_cases h2 : valuesEnc encode ps (encode p.1) = []
          · rw [ih1 h2, dictAppend_get_eq, h2]
          · rw [ih2 h2, dictAppend_get_eq]
            simp
      · have hcons : valuesEnc encode (p :: ps) s = valuesEnc encode ps s := by
          simp [valuesEnc, hs]
        have hacc : dictGet (dictAppend acc (encode p.1) p.2) s = dictGet acc s :=
          dictAppend_get_ne acc (encode p.1) s p.2 (fun heq => hs heq.symm)
        constructor
        · intro hnil
          rw [hcons] at hnil
          rw [ih1 hnil, hacc]
        · intro hnil
          rw [hcons] at hnil
          rw [ih2 hnil, hacc, hcons]

/-- The grouping dict built from a fresh dict has distinct keys. -/
theorem grp_nodup_aux {κ ν σ : Type} [DecidableEq σ] (encode : κ → σ) :
    ∀ (ps : List (κ × ν)) (acc : List (σ × List ν)),
      (acc.map Prod.fst).Nodup →
      ((ps.foldl (fun m p => dictAppend m (encode p.1) p.2) acc).map Prod.fst).Nodup
  | [], _, h => h
  | p :: ps, acc, h =>
      grp_nodup_aux encode ps (dictAppend acc (encode p.1) p.2)
        (dictAppend_nodup acc (encode p.1) p.2 h)

/-- An encoded key nobody maps to is absent from the grouping dict. -/
theorem grp_get_none {κ ν σ : Type} [DecidableEq σ] (encode : κ → σ)
    (ps : List (κ × ν)) (s : σ) (h : valuesEnc encode ps s = []) :
    dictGet (grp encode ps) s = none :=
  ((grp_get_aux encode ps [] s).1 h).trans rfl

/-- An encoded key somebody maps to is bound to its arrival-ordered values. -/
theorem grp_get_some {κ ν σ : Type} [DecidableEq σ] (encode : κ → σ)
    (ps : List (κ × ν)) (s : σ) (h : valuesEnc encode ps s ≠ []) :
    dictGet (grp encode ps) s = some (valuesEnc encode ps s) := by
  have hx := (grp_get_aux encode ps [] s).2 h
  simpa [dictGet] using hx

/-- The values under an encoded key are non-empty exactly when some arriving
pair's key encodes to it. -/
theorem valuesEnc_ne_nil {κ ν σ : Type} [DecidableEq σ] (encode : κ → σ)
    (ps : List (κ × ν)) (s : σ) :
    valuesEnc encode ps s ≠ [] ↔ ∃ p ∈ ps, encode p.1 = s := by
  induction ps with
  | nil => simp [valuesEnc]
  | cons p ps ih =>
      by_cases hs : encode p.1 = s
      · simp [valuesEnc, hs]
      · have h1 : valuesEnc encode (p :: ps) s = valuesEnc encode ps s := by
          simp [valuesEnc, hs]
        rw [h1, ih]
        simp [hs]

/-- On input with no malformed element, the loop of run_GroupByKeyOnly
succeeds with the dict folded from its well-formed pairs. -/
theorem gbkLoop_ok {κ ν σ : Type} [DecidableEq σ] (encode : κ → σ) :
    ∀ (input : List (GBKElem κ ν)) (acc : List (σ × List ν)),
      (∀ e ∈ input, e ≠ GBKElem.bad) →
      gbkLoop encode input acc
        = Except.ok ((goodPairs input).foldl
            (fun m p => dictAppend m (encode p.1) p.2) acc)
  | [], acc, _ => by simp [gbkLoop, goodPairs]
  | .good wv :: rest, acc, h => by
      rw [show goodPairs (GBKElem.good wv :: rest) = wv.value :: goodPairs rest
          from by simp [goodPairs]]
      rw [List.foldl_cons]
      exact gbkLoop_ok encode rest _ (fun e he => h e (List.mem_cons_of_mem _ he))
  | .bad :: rest, acc, h => absurd rfl (h _ (List.mem_cons_self _ _))

/-- On input containing a malformed element, the loop raises TypeCheckError. -/
theorem gbkLoop_bad {κ ν σ : Type} [DecidableEq σ] (encode : κ → σ) :
    ∀ (input : List (GBKElem κ ν)) (acc : List (σ × List ν)),
      GBKElem.bad ∈ input →
      ∃ msg, gbkLoop encode input acc
        = Except.error (RunnerError.typeCheckError msg)
  | [], _, h => absurd h (by simp)
  | .good wv :: rest, acc, h => by
      have hrest : GBKElem.bad ∈ rest := by
        rcases List.mem_cons.mp h with h1 | h1
        · exact absurd h1 (by simp)
        · exact h1
      exact gbkLoop_bad encode rest _ hrest
  | .bad :: rest, _, _ => ⟨_, rfl⟩

/-- Claim C2: for every input sequence of windowed key-value pairs,
run_GroupByKeyOnly caches exactly one output group per distinct encoded key,
pairing the decoded key with the values of that key in arrival order; and if
any input element is not a windowed 2-element pair it raises a type-check
error instead. The coder collaborator is a parameter subject to its contract
that decoding inverts encoding. -/
theorem c2_run_GroupByKeyOnly {κ ν σ : Type} [DecidableEq σ] [DecidableEq κ]
    (encode : κ → σ) (decode : σ → κ) (hrt : ∀ k, decode (encode k) = k)
    (input : List (GBKElem κ ν)) :
    ((∀ e ∈ input, e ≠ GBKElem.bad) →
      ∃ out, run_GroupByKeyOnly encode decode input = Except.ok out ∧
        (out.map (fun w => w.value.1)).Nodup ∧
        (∀ k : κ, (∃ vs, WindowedValue.mk (k, vs) ∈ out) ↔
            k ∈ (goodPairs input).map Prod.fst) ∧
        (∀ k vs, WindowedValue.mk (k, vs) ∈ out →
            vs = (goodPairs input).filterMap
              (fun p => if p.1 = k then some p.2 else none))) ∧
    (GBKElem.bad ∈ input →
      ∃ msg, run_GroupByKeyOnly encode decode input
        = Except.error (RunnerError.typeCheckError msg)) := by
  have hinj : Function.Injective encode := by
    intro a b hab
    have := congrArg decode hab
    rwa [hrt, hrt] at this
  constructor
  · intro hgood
    set ps := goodPairs input with hps
    have hloop := gbkLoop_ok encode input [] hgood
    have hnodup : ((grp encode ps).map Prod.fst).Nodup :=
      grp_nodup_aux encode ps [] (by simp)
    have hkeys : ∀ s ∈ (grp encode ps).map Prod.fst, ∃ a, encode a = s := by
      intro s hs
      have hsome : dictGet (grp encode ps) s ≠ none := by
        rw [ne_eq, dictGet_eq_none]
        simpa using hs
      by_cases hnil : valuesEnc encode ps s = []
      · exact absurd (grp_get_none encode ps s hnil) hsome
      · obtain ⟨p, _, hp⟩ := (valuesEnc_ne_nil encode ps s).mp hnil
        exact ⟨p.1, hp⟩
    refine ⟨(grp encode ps).map (fun p => WindowedValue.mk (decode p.1, p.2)),
      ?_, ?_, ?_, ?_⟩
    · rw [run_GroupByKeyOnly, hloop]
      rfl
    · rw [List.map_map]
      have hmapped :
          (((grp encode ps).map Prod.fst).map (fun s => decode s)).Nodup := by
        refine List.Nodup.map_on ?_ hnodup
        intro x hx y hy hxy
        obtain ⟨a, ha⟩ := hkeys x hx
        obtain ⟨b, hb⟩ := hkeys y hy
        subst ha; subst hb
        rw [hrt, hrt] at hxy
        exact congrArg encode hxy
      rw [List.map_map] at hmapped
      exact hmapped
    · intro k
      constructor
      · rintro ⟨vs, hmem⟩
        obtain ⟨p, hp, heq⟩ := List.mem_map.mp hmem
        have hkey : dictGet (grp encode ps) p.1 = some p.2 :=
          (dictGet_mem (grp encode ps) hnodup p.1 p.2).mp hp
        by_cases hnil : valuesEnc encode ps p.1 = []
        · exact absurd (grp_get_none encode ps p.1 hnil) (by simp [hkey])
        · obtain ⟨q, hq, hqe⟩ := (valuesEnc_ne_nil encode ps p.1).mp hnil
          have hdec : decode p.1 = k := congrArg (fun w => w.value.1) heq
          have hk : k = q.1 := by
            rw [← hdec, ← hqe, hrt]
          rw [hk]
          exact List.mem_map_of_mem Prod.fst hq
      · intro hk
        obtain ⟨q, hq, hqk⟩ := List.mem_map.mp hk
        have hne : valuesEnc encode ps (encode k) ≠ [] := by
          rw [valuesEnc_ne_nil]
          exact ⟨q, hq, by rw [hqk]⟩
        have hget : dictGet (grp encode ps) (encode k)
            = some (valuesEnc encode ps (encode k)) :=
          grp_get_some encode ps (encode k) hne
        have hmem : (encode k, valuesEnc encode ps (encode k)) ∈ grp encode ps :=
          (dictGet_mem (grp encode ps) hnodup _ _).mpr hget
        refine ⟨valuesEnc encode ps (encode k), ?_⟩
        have hx := List.mem_map_of_mem
          (fun p => WindowedValue.mk (α := κ × List ν) (decode p.1, p.2)) hmem
        simpa [hrt] using hx
    · intro k vs hmem
      obtain ⟨p, hp, heq⟩ := List.mem_map.mp hmem
      have hkey : dictGet (grp encode ps) p.1 = some p.2 :=
        (dictGet_mem (grp encode ps) hnodup p.1 p.2).mp hp
      by_cases hnil : valuesEnc encode ps p.1 = []
      · exact absurd (grp_get_none encode ps p.1 hnil) (by simp [hkey])
      · have hsome := grp_get_some encode ps p.1 hnil
        obtain ⟨q, hq, hqe⟩ := (valuesEnc_ne_nil encode ps p.1).mp hnil
        have hdec : decode p.1 = k := congrArg (fun w => w.value.1) heq
        have hvs : p.2 = vs := congrArg (fun w => w.value.2) heq
        have hk : k = q.1 := by rw [← hdec, ← hqe, hrt]
        have hs : p.1 = encode k := by rw [hk, hqe]
        rw [← hvs]
        have hpv : p.2 = valuesEnc encode ps p.1 := by
          rw [hkey] at hsome
          exact Option.some_inj.mp hsome
        rw [hpv, hs]
        unfold valuesEnc
        congr 1
        funext q'
        by_cases hq' : q'.1 = k
        · simp [hq']
        · have hqn : encode q'.1 ≠ encode k := fun hcontra => hq' (hinj hcontra)
          simp [hq', hqn]
  · intro hbad
    obtain ⟨msg, hmsg⟩ := gbkLoop_bad encode input [] hbad
    exact ⟨msg, by rw [run_GroupByKeyOnly, hmsg]; rfl⟩

/-- Witness for C2: the spec example with keys 0 and 1 standing for a and b,
stream (0,1), (1,2), (0,3) under the identity coder, and a malformed input. -/
theorem c2_witness :
    (∃ out,
      run_GroupByKeyOnly (fun k : ℕ => k) (fun s : ℕ => s)
          [GBKElem.good (WindowedValue.mk (0, 1)),
           GBKElem.good (WindowedValue.mk (1, 2)),
           GBKElem.good (WindowedValue.mk (0, 3))]
        = Except.ok out ∧
      (out.map (fun w => w.value.1)).Nodup ∧
      (∀ k : ℕ, (∃ vs, WindowedValue.mk (k, vs) ∈ out) ↔
          k ∈ (goodPairs
            [GBKElem.good (WindowedValue.mk (0, 1)),
             GBKElem.good (WindowedValue.mk (1, 2)),
             GBKElem.good (WindowedValue.mk ((0 : ℕ), (3 : ℕ)))]).map Prod.fst) ∧
      (∀ k vs, WindowedValue.mk (k, vs) ∈ out →
          vs = (goodPairs
            [GBKElem.good (WindowedValue.mk (0, 1)),
             GBKElem.good (WindowedValue.mk (1, 2)),
             GBKElem.good (WindowedValue.mk ((0 : ℕ), (3 : ℕ)))]).filterMap
            (fun p => if p.1 = k then some p.2 else none))) ∧
    (∃ msg,
      run_GroupByKeyOnly (fun k : ℕ => k) (fun s : ℕ => s)
          [GBKElem.bad (κ := ℕ) (ν := ℕ)]
        = Except.error (RunnerError.typeCheckError msg)) := by
  have h := c2_run_GroupByKeyOnly (fun k : ℕ => k) (fun s : ℕ => s)
    (fun _ => rfl)
    [GBKElem.good (WindowedValue.mk (0, 1)),
     GBKElem.good (WindowedValue.mk (1, 2)),
     GBKElem.good (WindowedValue.mk (0, 3))]
  have hb := c2_run_GroupByKeyOnly (fun k : ℕ => k) (fun s : ℕ => s)
    (fun _ => rfl) [GBKElem.bad (κ := ℕ) (ν := ℕ)]
  exact ⟨h.1 (by decide), hb.2 (by decide)⟩

/-- An asymmetric comparator is irreflexive. -/
theorem lt_irrefl_of_asymm {α : Type} (lt : α → α → Bool) (hA : LtAsymm lt)
    (a : α) : lt a a = false := by
  cases h : lt a a with
  | false => rfl
  | true => exact absurd (hA a a h) (by simp [h])

/-- The heap order relation is total for an asymmetric comparator. -/
theorem heapLe_total {α : Type} (lt : α → α → Bool) (hA : LtAsymm lt) :
    ∀ a b, heapLe lt a b ∨ heapLe lt b a := by
  intro a b
  cases h : lt b a with
  | false => exact Or.inl h
  | true => exact Or.inr (hA b a h)

/-- The heap order relation is transitive for a strict total order. -/
theorem heapLe_trans_rel {α : Type} (lt : α → α → Bool) (hT : LtTrans lt)
    (hTr : LtTrich lt) :
    ∀ a b c, heapLe lt a b → heapLe lt b c → heapLe lt a c := by
  intro a b c hab hbc
  unfold heapLe at *
  cases hca : lt c a with
  | false => rfl
  | true =>
      cases hbc' : lt b c with
      | true =>
          have := hT b c a hbc' hca
          rw [this] at hab
          exact hab
      | false =>
          have hcb : c = b := hTr c b hbc hbc'
          rw [hcb] at hca
          rw [hca] at hab
          exact hab

/-- The descending order relation is total for an asymmetric comparator. -/
theorem descLe_total {α : Type} (lt : α → α → Bool) (hA : LtAsymm lt) :
    ∀ a b, descLe lt a b ∨ descLe lt b a := by
  intro a b
  cases h : lt a b with
  | false => exact Or.inl h
  | true => exact Or.inr (hA a b h)

/-- The descending order relation is transitive for a strict total order. -/
theorem descLe_trans_rel {α : Type} (lt : α → α → Bool) (hT : LtTrans lt)
    (hTr : LtTrich lt) :
    ∀ a b c, descLe lt a b → descLe lt b c → descLe lt a c := by
  intro a b c hab hbc
  unfold descLe at *
  cases hac : lt a c with
  | false => rfl
  | true =>
      cases hba : lt b a with
      | true =>
          have := hT b a c hba hac
          rw [this] at hbc
          exact hbc
      | false =>
          have hba' : a = b := hTr a b hab hba
          rw [← hba'] at hbc
          rw [hac] at hbc
          exact hbc

/-- The descending order relation is antisymmetric for a total comparator. -/
theorem descLe_antisymm_rel {α : Type} (lt : α → α → Bool) (hTr : LtTrich lt) :
    ∀ a b, descLe lt a b → descLe lt b a → a = b := by
  intro a b hab hba
  exact hTr a b hab hba

/-- Pushing keeps the heap contents plus the new item. -/
theorem heappush_perm {α : Type} (lt : α → α → Bool) (heap : List α)
    (item : α) : List.Perm (heappush lt heap item) (item :: heap) :=
  List.perm_orderedInsert (heapLe lt) item heap

/-- Pushing grows the heap by one, whatever the comparator. -/
theorem heappush_length {α : Type} (lt : α → α → Bool) (heap : List α)
    (item : α) : (heappush lt heap item).length = heap.length + 1 :=
  List.orderedInsert_length (heapLe lt) heap item

/-- Push-pop keeps the heap size, whatever the comparator. -/
theorem heappushpop_length {α : Type} (lt : α → α → Bool) (heap : List α)
    (item : α) : (heappushpop lt heap item).length = heap.length := by
  cases heap with
  | nil => rfl
  | cons h t =>
      unfold heappushpop
      by_cases hlt : lt h item
      · simp only [if_pos hlt]
        rw [List.orderedInsert_length]
        rfl
      · simp only [if_neg hlt]

/-- Pushing keeps the heap ascending. -/
theorem heappush_sorted {α : Type} (lt : α → α → Bool) (hT : LtTrans lt)
    (hA : LtAsymm lt) (hTr : LtTrich lt) (heap : List α) (item : α)
    (hs : List.Sorted (heapLe lt) heap) :
    List.Sorted (heapLe lt) (heappush lt heap item) := by
  haveI : IsTotal α (heapLe lt) := ⟨heapLe_total lt hA⟩
  haveI : IsTrans α (heapLe lt) := ⟨heapLe_trans_rel lt hT hTr⟩
  exact hs.orderedInsert item heap

/-- Push-pop keeps the heap ascending. -/
theorem heappushpop_sorted {α : Type} (lt : α → α → Bool) (hT : LtTrans lt)
    (hA : LtAsymm lt) (hTr : LtTrich lt) (heap : List α) (item : α)
    (hs : List.Sorted (heapLe lt) heap) :
    List.Sorted (heapLe lt) (heappushpop lt heap item) := by
  haveI : IsTotal α (heapLe lt) := ⟨heapLe_total lt hA⟩
  haveI : IsTrans α (heapLe lt) := ⟨heapLe_trans_rel lt hT hTr⟩
  cases heap with
  | nil => exact List.sorted_nil
  | cons h t =>
      unfold heappushpop
      by_cases hlt : lt h item
      · simp only [if_pos hlt]
        exact (List.sorted_cons.mp hs).2.orderedInsert item t
      · simp only [if_neg hlt]
        exact hs

/-- In an ascending heap nothing is less than the head. -/
theorem sorted_head_min {α : Type} (lt : α → α → Bool) (hA : LtAsymm lt)
    (h : α) (t : List α) (hs : List.Sorted (heapLe lt) (h :: t)) :
    ∀ y ∈ h :: t, lt y h = false := by
  intro y hy
  rcases List.mem_cons.mp hy with rfl | hyt
  · exact lt_irrefl_of_asymm lt hA y
  · exact List.rel_of_sorted_cons hs y hyt

/-- Subtracting the tail of a contained cons leaves the head on top of
subtracting the whole cons. -/
theorem sub_of_cons_le {α : Type} [DecidableEq α] (S M : Multiset α) (h : α)
    (hle : h ::ₘ M ≤ S) : S - M = h ::ₘ (S - (h ::ₘ M)) := by
  ext z
  have hc := Multiset.count_le_of_le z hle
  rw [Multiset.count_cons] at hc
  rw [Multiset.count_sub, Multiset.count_cons, Multiset.count_sub,
    Multiset.count_cons]
  by_cases hz : z = h
  · simp [hz] at hc ⊢
    omega
  · simp [hz] at hc ⊢

/-- One bounded add keeps the heap invariant: the heap stays ascending and
holds the n greatest of the elements seen so far. -/
theorem add_input_inv {α : Type} [DecidableEq α] (lt : α → α → Bool) (n : ℕ)
    (hT : LtTrans lt) (hA : LtAsymm lt) (hTr : LtTrich lt)
    (S : Multiset α) (heap : List α) (x : α)
    (hinv : HeapInv lt n S heap) :
    HeapInv lt n (x ::ₘ S) (TopCombineFn.add_input lt n heap x) := by
  have hsorted : List.Sorted (heapLe lt) heap := hinv.1
  have hle : (↑heap : Multiset α) ≤ S := hinv.2.1
  have hcard : Multiset.card (↑heap : Multiset α) = min n (Multiset.card S) :=
    hinv.2.2.1
  have hexcl := hinv.2.2.2
  have hlen : heap.length = min n (Multiset.card S) := by
    rw [← Multiset.coe_card]
    exact hcard
  unfold TopCombineFn.add_input
  by_cases hfull : heap.length < n
  · rw [if_pos hfull]
    have hperm : (↑(heappush lt heap x) : Multiset α) = x ::ₘ (↑heap : Multiset α) :=
      (Multiset.coe_eq_coe.mpr (heappush_perm lt heap x)).trans
        (Multiset.cons_coe x heap)
    have hSM : (↑heap : Multiset α) = S := by
      refine Multiset.eq_of_le_of_card_le hle ?_
      rw [Multiset.coe_card]
      omega
    refine ⟨heappush_sorted lt hT hA hTr heap x hsorted, ?_, ?_, ?_⟩
    · rw [hperm]
      exact Multiset.cons_le_cons x hle
    · rw [hperm, Multiset.card_cons, Multiset.card_cons, Multiset.coe_card]
      omega
    · rw [hperm, hSM]
      intro z hz
      simp at hz
  · rw [if_neg hfull]
    have hn : heap.length = n ∧ n ≤ Multiset.card S := by
      constructor <;> omega
    cases heap with
    | nil =>
        have hn0 : n = 0 := by simpa using hn.1.symm
        simp only [heappushpop]
        refine ⟨List.sorted_nil, ?_, ?_, ?_⟩
        · simp
        · simp [hn0]
        · intro z hz y hy
          simp at hy
    | cons h t =>
        have hmin := sorted_head_min lt hA h t hsorted
        have hMeq : (↑(h :: t) : Multiset α) = h ::ₘ (↑t : Multiset α) :=
          (Multiset.cons_coe h t).symm
        rw [hMeq] at hle
        simp only [heappushpop]
        by_cases hx : lt h x = true
        · rw [if_pos hx]
          have hperm :
              (↑(List.orderedInsert (heapLe lt) x t) : Multiset α)
                = x ::ₘ (↑t : Multiset α) :=
            (Multiset.coe_eq_coe.mpr (List.perm_orderedInsert _ x t)).trans
              (Multiset.cons_coe x t)
          have hsorted' : List.Sorted (heapLe lt)
              (List.orderedInsert (heapLe lt) x t) := by
            haveI : IsTotal α (heapLe lt) := ⟨heapLe_total lt hA⟩
            haveI : IsTrans α (heapLe lt) := ⟨heapLe_trans_rel lt hT hTr⟩
            exact (List.sorted_cons.mp hsorted).2.orderedInsert x t
          have htle : (↑t : Multiset α) ≤ S :=
            le_trans (Multiset.le_cons_self (↑t : Multiset α) h) hle
          refine ⟨hsorted', ?_, ?_, ?_⟩
          · rw [hperm]
            exact Multiset.cons_le_cons x htle
          · rw [hperm, Multiset.card_cons, Multiset.card_cons,
              Multiset.coe_card]
            have hlt : t.length + 1 = n := by
              simpa using hn.1
            omega
          · rw [hperm]
            have hsub1 : (x ::ₘ S) - (x ::ₘ (↑t : Multiset α))
                = S - (↑t : Multiset α) := by
              rw [Multiset.sub_cons, Multiset.erase_cons_head]
            have hsub2 : S - (↑t : Multiset α)
                = h ::ₘ (S - (h ::ₘ (↑t : Multiset α))) :=
              sub_of_cons_le S (↑t) h hle
            rw [hsub1, hsub2]
            intro z hz y hy
            rcases Multiset.mem_cons.mp hz with rfl | hzS
            · rcases Multiset.mem_cons.mp hy with rfl | hyt
              · exact hA z y hx
              · exact hmin y (List.mem_cons_of_mem z (Multiset.mem_coe.mp hyt))
            · have hz' : ∀ w ∈ (↑(h :: t) : Multiset α), lt w z = false := by
                intro w hw
                refine hexcl z ?_ w hw
                rw [hMeq]
                exact hzS
              rcases Multiset.mem_cons.mp hy with rfl | hyt
              · cases hxz : lt y z with
                | false => rfl
                | true =>
                    have hhz := hT h y z hx hxz
                    have hhz' := hz' h (by rw [hMeq]; exact Multiset.mem_cons_self h _)
                    rw [hhz] at hhz'
                    exact hhz'
              · exact hz' y (by rw [hMeq]; exact Multiset.mem_cons_of_mem hyt)
        · rw [if_neg hx]
          have hx' : lt h x = false := by
            simpa using hx
          refine ⟨hsorted, ?_, ?_, ?_⟩
          · rw [hMeq]
            exact hle.trans (Multiset.le_cons_self S x)
          · rw [hMeq] at hcard ⊢
            rw [hcard, Multiset.card_cons]
            omega
          · rw [hMeq, Multiset.cons_sub_of_le x hle]
            intro z hz y hy
            rcases Multiset.mem_cons.mp hz with rfl | hzS
            · rcases Multiset.mem_cons.mp hy with rfl | hyt
              · exact hx'
              · cases hyx : lt y z with
                | false => rfl
                | true =>
                    have hyh := hmin y (List.mem_cons_of_mem h (Multiset.mem_coe.mp hyt))
                    cases hhy : lt h y with
                    | true =>
                        have := hT h y z hhy hyx
                        rw [this] at hx'
                        exact hx'
                    | false =>
                        have heq := hTr y h hyh hhy
                        rw [heq] at hyx
                        rw [hyx] at hx'
                        exact hx'
            · refine hexcl z ?_ y ?_
              · rw [hMeq]
                exact hzS
              · rw [hMeq]
                exact hy

/-- Folding bounded adds keeps the heap invariant across a whole stream. -/
theorem foldl_add_input_inv {α : Type} [DecidableEq α] (lt : α → α → Bool)
    (n : ℕ) (hT : LtTrans lt) (hA : LtAsymm lt) (hTr : LtTrich lt) :
    ∀ (xs : List α) (S : Multiset α) (heap : List α),
      HeapInv lt n S heap →
      HeapInv lt n (S + (↑xs : Multiset α))
        (xs.foldl (TopCombineFn.add_input lt n) heap)
  | [], S, heap, h => by simpa using h
  | x :: xs, S, heap, h => by
      have h1 := add_input_inv lt n hT hA hTr S heap x h
      have h2 := foldl_add_input_inv lt n hT hA hTr xs (x ::ₘ S)
        (TopCombineFn.add_input lt n heap x) h1
      rw [List.foldl_cons]
      have heq : (x ::ₘ S) + (↑xs : Multiset α) = S + (↑(x :: xs) : Multiset α) := by
        rw [← Multiset.cons_coe, Multiset.cons_add, Multiset.add_cons]
      rw [heq] at h2
      exact h2

/-- The empty heap satisfies the invariant for the empty stream. -/
theorem empty_heap_inv {α : Type} [DecidableEq α] (lt : α → α → Bool) (n : ℕ) :
    HeapInv lt n 0 ([] : List α) := by
  refine ⟨List.sorted_nil, ?_, ?_, ?_⟩
  · simp
  · simp
  · intro z hz y hy
    simp at hy

/-- The accumulator built by repeated add_input holds the n greatest of the
stream and is ascending. -/
theorem addFold_inv {α : Type} [DecidableEq α] (lt : α → α → Bool) (n : ℕ)
    (hT : LtTrans lt) (hA : LtAsymm lt) (hTr : LtTrich lt) (xs : List α) :
    HeapInv lt n (↑xs : Multiset α) (topAddFold lt n xs) := by
  have h := foldl_add_input_inv lt n hT hA hTr xs 0 [] (empty_heap_inv lt n)
  simpa [topAddFold, TopCombineFn.create_accumulator] using h

/-- The merge loop is the bounded add fold over the chained heap items. -/
theorem merge_eq_foldl {α : Type} (lt : α → α → Bool) (n : ℕ)
    (heaps : List (List α)) :
    TopCombineFn.merge_accumulators lt n heaps
      = heaps.flatten.foldl (TopCombineFn.add_input lt n) [] := rfl

/-- The merged accumulator holds the n greatest of the chained heap items. -/
theorem mergeFold_inv {α : Type} [DecidableEq α] (lt : α → α → Bool) (n : ℕ)
    (hT : LtTrans lt) (hA : LtAsymm lt) (hTr : LtTrich lt)
    (heaps : List (List α)) :
    HeapInv lt n (↑heaps.flatten : Multiset α)
      (TopCombineFn.merge_accumulators lt n heaps) := by
  rw [merge_eq_foldl]
  have h := foldl_add_input_inv lt n hT hA hTr heaps.flatten 0 []
    (empty_heap_inv lt n)
  simpa using h

/-- The multiset of a flattened list of lists is the sum of the multisets. -/
theorem coe_flatten_eq_sum {α : Type} : ∀ (L : List (List α)),
    (↑L.flatten : Multiset α) = (L.map (fun l : List α => (l : Multiset α))).sum
  | [] => rfl
  | l :: L => by
      show (↑(l ++ L.flatten) : Multiset α) = _
      rw [← Multiset.coe_add, coe_flatten_eq_sum L, List.map_cons, List.sum_cons]

/-- Pointwise top-n partials sum below their sources. -/
theorem forall₂_isTopK_sum_le {α : Type} [DecidableEq α] (lt : α → α → Bool)
    (n : ℕ) (Ss Ms : List (Multiset α))
    (hF : List.Forall₂ (IsTopK lt n) Ss Ms) : Ms.sum ≤ Ss.sum := by
  induction hF with
  | nil => exact le_rfl
  | cons h hrest ih =>
      rw [List.sum_cons, List.sum_cons]
      exact add_le_add h.1 ih

/-- When the summed partials hold fewer than n items, every partial equals
its source. -/
theorem forall₂_isTopK_sum_eq {α : Type} [DecidableEq α] (lt : α → α → Bool)
    (n : ℕ) (Ss Ms : List (Multiset α))
    (hF : List.Forall₂ (IsTopK lt n) Ss Ms) :
    Multiset.card Ms.sum < n → Ms.sum = Ss.sum := by
  induction hF with
  | nil => intro; rfl
  | cons h hrest ih =>
      intro hlt
      rename_i S₁ M₁ Ss' Ms'
      rw [List.sum_cons, Multiset.card_add] at hlt
      rw [List.sum_cons, List.sum_cons]
      have hM₁S : M₁ = S₁ := by
        refine Multiset.eq_of_le_of_card_le h.1 ?_
        have := h.2.1
        omega
      rw [hM₁S, ih (by omega)]

/-- A count gap between summed sources and summed partials comes from some
component pair. -/
theorem forall₂_count_lt {α : Type} [DecidableEq α] (lt : α → α → Bool)
    (n : ℕ) (z : α) (Ss Ms : List (Multiset α))
    (hF : List.Forall₂ (IsTopK lt n) Ss Ms)
    (hlt : Multiset.count z Ms.sum < Multiset.count z Ss.sum) :
    ∃ S₁ M₁, IsTopK lt n S₁ M₁ ∧
      Multiset.count z M₁ < Multiset.count z S₁ ∧ M₁ ≤ Ms.sum := by
  induction hF with
  | nil => simp at hlt
  | cons h hrest ih =>
      rename_i S₁ M₁ Ss' Ms'
      rw [List.sum_cons, List.sum_cons, Multiset.count_add,
        Multiset.count_add] at hlt
      by_cases hc : Multiset.count z M₁ < Multiset.count z S₁
      · exact ⟨S₁, M₁, h, hc, by
          rw [List.sum_cons]
          exact Multiset.le_add_right M₁ Ms'.sum⟩
      · have hle := Multiset.count_le_of_le z h.1
        obtain ⟨S₂, M₂, h2, hc2, hle2⟩ := ih (by omega)
        exact ⟨S₂, M₂, h2, hc2, by
          rw [List.sum_cons]
          exact hle2.trans (Multiset.le_add_left Ms'.sum M₁)⟩

/-- A strict top-n partial that differs from its source is full. -/
theorem isTopK_card_full {α : Type} [DecidableEq α] (lt : α → α → Bool)
    (n : ℕ) (S₁ M₁ : Multiset α) (h : IsTopK lt n S₁ M₁) (hne : M₁ ≠ S₁) :
    Multiset.card M₁ = n := by
  have hlt : M₁ < S₁ := lt_of_le_of_ne h.1 hne
  have hcard := Multiset.card_lt_card hlt
  have := h.2.1
  omega

/-- The n greatest of the pointwise n greatest of a family are the n greatest
of the whole family. -/
theorem isTopK_sum {α : Type} [DecidableEq α] (lt : α → α → Bool) (n : ℕ)
    (hT : LtTrans lt) (_hA : LtAsymm lt) (hTr : LtTrich lt)
    (Ss Ms : List (Multiset α)) (M : Multiset α)
    (hF : List.Forall₂ (IsTopK lt n) Ss Ms)
    (hM : IsTopK lt n Ms.sum M) : IsTopK lt n Ss.sum M := by
  have hsumle := forall₂_isTopK_sum_le lt n Ss Ms hF
  refine ⟨hM.1.trans hsumle, ?_, ?_⟩
  · by_cases hbig : n ≤ Multiset.card Ms.sum
    · have h1 : Multiset.card Ms.sum ≤ Multiset.card Ss.sum :=
        Multiset.card_le_card hsumle
      have := hM.2.1
      omega
    · push_neg at hbig
      rw [← forall₂_isTopK_sum_eq lt n Ss Ms hF hbig]
      exact hM.2.1
  · intro z hz y hy
    rw [Multiset.mem_sub] at hz
    by_cases hzM : Multiset.count z M < Multiset.count z Ms.sum
    · exact hM.2.2 z (Multiset.mem_sub.mpr hzM) y hy
    · push_neg at hzM
      have hzS : Multiset.count z Ms.sum < Multiset.count z Ss.sum :=
        lt_of_le_of_lt hzM hz
      obtain ⟨S₁, M₁, h1, hc1, hle1⟩ := forall₂_count_lt lt n z Ss Ms hF hzS
      have hzM₁ : z ∈ S₁ - M₁ := Multiset.mem_sub.mpr hc1
      have hM₁excl := h1.2.2 z hzM₁
      have hM₁ne : M₁ ≠ S₁ := by
        intro heq
        rw [heq] at hc1
        omega
      have hcardM₁ : Multiset.card M₁ = n := isTopK_card_full lt n S₁ M₁ h1 hM₁ne
      have hcardMsum : n ≤ Multiset.card Ms.sum := by
        rw [← hcardM₁]
        exact Multiset.card_le_card hle1
      have hcardM : Multiset.card M = n := by
        have h2 := hM.2.1
        omega
      cases hyz : lt y z with
      | false => rfl
      | true =>
          by_cases hMM : M₁ ≤ M
          · have hMeq : M₁ = M := Multiset.eq_of_le_of_card_le hMM (by omega)
            have hy1 : y ∈ M₁ := by
              rw [hMeq]
              exact hy
            have hfin := hM₁excl y hy1
            rw [hyz] at hfin
            exact hfin
          · obtain ⟨w, hw⟩ : ∃ w, Multiset.count w M < Multiset.count w M₁ := by
              by_contra hc
              push_neg at hc
              exact hMM (Multiset.le_iff_count.mpr hc)
            have hwM₁ : w ∈ M₁ := by
              rw [← Multiset.count_pos]
              omega
            have hwMs : w ∈ Ms.sum - M := by
              rw [Multiset.mem_sub]
              have := Multiset.count_le_of_le w hle1
              omega
            have hyw := hM.2.2 w hwMs y hy
            have hwz := hM₁excl w hwM₁
            cases hwy : lt w y with
            | true =>
                have hfin := hT w y z hwy hyz
                rw [hfin] at hwz
                exact hwz
            | false =>
                have heqwy := hTr w y hwy hyw
                rw [heqwy] at hwz
                rw [hyz] at hwz
                exact hwz

/-- The n greatest of a multiset are unique under a strict total order. -/
theorem isTopK_unique {α : Type} [DecidableEq α] (lt : α → α → Bool) (n : ℕ)
    (hTr : LtTrich lt) (S M M' : Multiset α)
    (h1 : IsTopK lt n S M) (h2 : IsTopK lt n S M') : M = M' := by
  by_contra hne
  have hcard : Multiset.card M = Multiset.card M' := by
    rw [h1.2.1, h2.2.1]
  have h12 : ¬ M ≤ M' := fun hle =>
    hne (Multiset.eq_of_le_of_card_le hle (le_of_eq hcard.symm))
  have h21 : ¬ M' ≤ M := fun hle =>
    hne ((Multiset.eq_of_le_of_card_le hle (le_of_eq hcard)).symm)
  obtain ⟨w, hw⟩ : ∃ w, Multiset.count w M' < Multiset.count w M := by
    by_contra hc
    push_neg at hc
    exact h12 (Multiset.le_iff_count.mpr hc)
  obtain ⟨w', hw'⟩ : ∃ w', Multiset.count w' M < Multiset.count w' M' := by
    by_contra hc
    push_neg at hc
    exact h21 (Multiset.le_iff_count.mpr hc)
  have hwM : w ∈ M := by
    rw [← Multiset.count_pos]
    omega
  have hw'M' : w' ∈ M' := by
    rw [← Multiset.count_pos]
    omega
  have hwS : w ∈ S - M' := by
    rw [Multiset.mem_sub]
    have := Multiset.count_le_of_le w h1.1
    omega
  have hw'S : w' ∈ S - M := by
    rw [Multiset.mem_sub]
    have := Multiset.count_le_of_le w' h2.1
    omega
  have hww' : lt w w' = false := h1.2.2 w' hw'S w hwM
  have hw'w : lt w' w = false := h2.2.2 w hwS w' hw'M'
  have heq : w = w' := hTr w w' hww' hw'w
  rw [heq] at hw
  omega

/-- Extraction sorts descending. -/
theorem extract_sorted {α : Type} (lt : α → α → Bool) (hT : LtTrans lt)
    (hA : LtAsymm lt) (hTr : LtTrich lt) (heap : List α) :
    List.Sorted (descLe lt) (TopCombineFn.extract_output lt heap) := by
  haveI : IsTotal α (descLe lt) := ⟨descLe_total lt hA⟩
  haveI : IsTrans α (descLe lt) := ⟨descLe_trans_rel lt hT hTr⟩
  exact List.sorted_insertionSort (descLe lt) heap

/-- Extraction permutes the heap contents. -/
theorem extract_perm {α : Type} (lt : α → α → Bool) (heap : List α) :
    List.Perm (TopCombineFn.extract_output lt heap) heap :=
  List.perm_insertionSort (descLe lt) heap

/-- Heaps with the same contents extract the same output under a strict
total order. -/
theorem extract_eq_of_content {α : Type} (lt : α → α → Bool) (hT : LtTrans lt)
    (hA : LtAsymm lt) (hTr : LtTrich lt) (h1 h2 : List α)
    (hperm : (↑h1 : Multiset α) = (↑h2 : Multiset α)) :
    TopCombineFn.extract_output lt h1 = TopCombineFn.extract_output lt h2 := by
  haveI : IsAntisymm α (descLe lt) := ⟨descLe_antisymm_rel lt hTr⟩
  refine List.eq_of_perm_of_sorted ?_ (extract_sorted lt hT hA hTr h1)
    (extract_sorted lt hT hA hTr h2)
  exact (extract_perm lt h1).trans
    ((Multiset.coe_eq_coe.mp hperm).trans (extract_perm lt h2).symm)

/-- The merged accumulator of pointwise partial accumulators holds the n
greatest of the concatenated input streams. -/
theorem merged_isTopK {α : Type} [DecidableEq α] (lt : α → α → Bool) (n : ℕ)
    (hT : LtTrans lt) (hA : LtAsymm lt) (hTr : LtTrich lt)
    (parts : List (List α)) :
    IsTopK lt n (↑parts.flatten : Multiset α)
      (↑(TopCombineFn.merge_accumulators lt n (parts.map (topAddFold lt n))) :
        Multiset α) := by
  have hptwise : ∀ (L : List (List α)), List.Forall₂ (IsTopK lt n)
      (L.map (fun l : List α => (l : Multiset α)))
      (L.map (fun l => (↑(topAddFold lt n l) : Multiset α))) := by
    intro L
    induction L with
    | nil => exact List.Forall₂.nil
    | cons p ps ih =>
        rw [List.map_cons, List.map_cons]
        exact List.Forall₂.cons (addFold_inv lt n hT hA hTr p).2 ih
  have hmerge := (mergeFold_inv lt n hT hA hTr (parts.map (topAddFold lt n))).2
  rw [coe_flatten_eq_sum, List.map_map] at hmerge
  have hM := isTopK_sum lt n hT hA hTr
    (parts.map (fun l : List α => (l : Multiset α)))
    (parts.map (fun l => (↑(topAddFold lt n l) : Multiset α)))
    (↑(TopCombineFn.merge_accumulators lt n (parts.map (topAddFold lt n))))
    (hptwise parts) hmerge
  rw [← coe_flatten_eq_sum] at hM
  exact hM

/-- One bounded add grows the heap only below the bound, for any comparator. -/
theorem add_input_length {α : Type} (lt : α → α → Bool) (n : ℕ)
    (heap : List α) (x : α) :
    (TopCombineFn.add_input lt n heap x).length
      = if heap.length < n then heap.length + 1 else heap.length := by
  unfold TopCombineFn.add_input
  by_cases h : heap.length < n
  · rw [if_pos h, if_pos h, heappush_length]
  · rw [if_neg h, if_neg h, heappushpop_length]

/-- Folding bounded adds from a heap within the bound yields the bounded
size, for any comparator. -/
theorem foldl_add_input_length {α : Type} (lt : α → α → Bool) (n : ℕ) :
    ∀ (xs : List α) (heap : List α), heap.length ≤ n →
      (xs.foldl (TopCombineFn.add_input lt n) heap).length
        = min n (heap.length + xs.length)
  | [], heap, h => by
      simp
      omega
  | x :: xs, heap, h => by
      rw [List.foldl_cons]
      have hlen := add_input_length lt n heap x
      by_cases hlt : heap.length < n
      · rw [if_pos hlt] at hlen
        rw [foldl_add_input_length lt n xs (TopCombineFn.add_input lt n heap x)
          (by rw [hlen]; omega)]
        rw [hlen, List.length_cons]
        omega
      · rw [if_neg hlt] at hlen
        rw [foldl_add_input_length lt n xs (TopCombineFn.add_input lt n heap x)
          (by rw [hlen]; omega)]
        rw [hlen, List.length_cons]
        omega

/-- The accumulator size after a stream is the stream length capped at n. -/
theorem topAddFold_length {α : Type} (lt : α → α → Bool) (n : ℕ)
    (xs : List α) : (topAddFold lt n xs).length = min n xs.length := by
  have h := foldl_add_input_length lt n xs [] (by simp)
  simpa [topAddFold, TopCombineFn.create_accumulator] using h

/-- Flattening sums the lengths. -/
theorem flatten_length_eq {α : Type} : ∀ (L : List (List α)),
    L.flatten.length = (L.map List.length).sum
  | [] => rfl
  | l :: L => by
      show (l ++ L.flatten).length = _
      rw [List.length_append, flatten_length_eq L, List.map_cons, List.sum_cons]

/-- The merged accumulator size is the summed heap sizes capped at n, for
any comparator. -/
theorem merge_length {α : Type} (lt : α → α → Bool) (n : ℕ)
    (heaps : List (List α)) :
    (TopCombineFn.merge_accumulators lt n heaps).length
      = min n ((heaps.map List.length).sum) := by
  rw [merge_eq_foldl]
  have h := foldl_add_input_length lt n heaps.flatten [] (by simp)
  rw [flatten_length_eq] at h
  simpa using h

/-- Claim C3: for the Top-K combiner under a strict total order, splitting
the input stream into partial streams in any way, building one accumulator
per partial by repeated add_input from an empty accumulator, and merging the
partials yields the same extracted output as adding the full stream
sequentially. -/
theorem c3_topk_merge_extract {α : Type} [DecidableEq α] (lt : α → α → Bool)
    (n : ℕ) (hT : LtTrans lt) (hA : LtAsymm lt) (hTr : LtTrich lt)
    (parts : List (List α)) :
    TopCombineFn.extract_output lt
        (TopCombineFn.merge_accumulators lt n (parts.map (topAddFold lt n)))
      = TopCombineFn.extract_output lt (topAddFold lt n parts.flatten) := by
  have hseq := (addFold_inv lt n hT hA hTr parts.flatten).2
  have hM := merged_isTopK lt n hT hA hTr parts
  have hcontent := isTopK_unique lt n hTr (↑parts.flatten : Multiset α) _ _ hM hseq
  exact extract_eq_of_content lt hT hA hTr _ _ hcontent

/-- Witness for C3: the spec example, merging the Top-2 partials of the
streams 5, 1 and 9, 3 under the natural strict order. -/
theorem c3_witness :
    TopCombineFn.extract_output (fun a b : ℕ => decide (a < b))
        (TopCombineFn.merge_accumulators (fun a b : ℕ => decide (a < b)) 2
          (([[5, 1], [9, 3]] : List (List ℕ)).map
            (topAddFold (fun a b : ℕ => decide (a < b)) 2)))
      = TopCombineFn.extract_output (fun a b : ℕ => decide (a < b))
          (topAddFold (fun a b : ℕ => decide (a < b)) 2
            ([[5, 1], [9, 3]] : List (List ℕ)).flatten) :=
  c3_topk_merge_extract (fun a b : ℕ => decide (a < b)) 2
    (by
      intro a b c hab hbc
      simp only [decide_eq_true_eq] at hab hbc
      simp only [decide_eq_true_eq]
      omega)
    (by
      intro a b hab
      simp only [decide_eq_true_eq] at hab
      simp only [decide_eq_false_iff_not]
      omega)
    (by
      intro a b hab hba
      simp only [decide_eq_false_iff_not] at hab hba
      omega)
    [[5, 1], [9, 3]]

/-- Claim C9: after every add_input fold and every merge the Top-K
accumulator holds at most K items, exactly the stream length when fewer than
K have been seen, for any comparator however inconsistent; and under a strict
total order it holds exactly the K greatest items seen so far, with
extract_output returning them sorted from greatest to least in a list of
length at most K. -/
theorem c9_topk_invariants {α : Type} [DecidableEq α] (lt : α → α → Bool)
    (n : ℕ) :
    (∀ xs : List α, (topAddFold lt n xs).length = min n xs.length) ∧
    (∀ heaps : List (List α),
      (TopCombineFn.merge_accumulators lt n heaps).length
        = min n ((heaps.map List.length).sum)) ∧
    (LtTrans lt → LtAsymm lt → LtTrich lt →
      (∀ xs : List α,
        IsTopK lt n (↑xs : Multiset α) (↑(topAddFold lt n xs) : Multiset α)) ∧
      (∀ parts : List (List α),
        IsTopK lt n (↑parts.flatten : Multiset α)
          (↑(TopCombineFn.merge_accumulators lt n
              (parts.map (topAddFold lt n))) : Multiset α)) ∧
      (∀ xs : List α,
        (TopCombineFn.extract_output lt (topAddFold lt n xs)).length ≤ n ∧
        List.Sorted (descLe lt)
          (TopCombineFn.extract_output lt (topAddFold lt n xs)) ∧
        List.Perm (TopCombineFn.extract_output lt (topAddFold lt n xs))
          (topAddFold lt n xs))) := by
  refine ⟨topAddFold_length lt n, merge_length lt n, ?_⟩
  intro hT hA hTr
  refine ⟨fun xs => (addFold_inv lt n hT hA hTr xs).2,
    merged_isTopK lt n hT hA hTr, ?_⟩
  intro xs
  refine ⟨?_, extract_sorted lt hT hA hTr _, extract_perm lt _⟩
  rw [(extract_perm lt (topAddFold lt n xs)).length_eq, topAddFold_length]
  omega

/-- Witness for C9: the spec example, Top-2 of the stream 5, 1, 9, 3, 9 under
the natural strict order, whose extraction is 9, 9. -/
theorem c9_witness :
    (topAddFold (fun a b : ℕ => decide (a < b)) 2 [5, 1, 9, 3, 9]).length
      = min 2 ([5, 1, 9, 3, 9] : List ℕ).length ∧
    IsTopK (fun a b : ℕ => decide (a < b)) 2
      (↑([5, 1, 9, 3, 9] : List ℕ) : Multiset ℕ)
      (↑(topAddFold (fun a b : ℕ => decide (a < b)) 2 [5, 1, 9, 3, 9]) :
        Multiset ℕ) ∧
    TopCombineFn.extract_output (fun a b : ℕ => decide (a < b))
        (topAddFold (fun a b : ℕ => decide (a < b)) 2 [5, 1, 9, 3, 9])
      = [9, 9] := by
  have h := c9_topk_invariants (fun a b : ℕ => decide (a < b)) 2
  have hcontent := h.2.2
    (by
      intro a b c hab hbc
      simp only [decide_eq_true_eq] at hab hbc
      simp only [decide_eq_true_eq]
      omega)
    (by
      intro a b hab
      simp only [decide_eq_true_eq] at hab
      simp only [decide_eq_false_iff_not]
      omega)
    (by
      intro a b hab hba
      simp only [decide_eq_false_iff_not] at hab hba
      omega)
  exact ⟨h.1 [5, 1, 9, 3, 9], hcontent.1 [5, 1, 9, 3, 9], by decide⟩

end Dataflow
